import Mathlib

/-!
Verification of the django-permagate core: the permission catalog tree
(`permagate/permission.py`), the grant-resolution algorithm
(`permagate/core.py`: `_has_permission`), and the orchestration
(`core.py`: `has_permission`).

Modelling conventions:
* Python strings are modelled as `List Char` (`PStr`); `str.split "."` is
  `List.splitOn '.'` and `".".join` is `List.intercalate ['.']`.
* A Django queryset of grant rows filtered to one principal is modelled as the
  list of its permission strings; `queryset.filter(permission=x).exists()` is
  list membership.
* Python `assert` failures (`AssertionError`) are modelled by `Except.error`
  carrying the assertion message; normal returns are `Except.ok`.
* The `Permission` class is modelled twice, matching its two roles:
  an immutable tree (`Permission` below) for `exists` and matching, and an
  arena of records (`PermissionNode`) for the mutating `register` method,
  where object identity becomes an arena index and the `_parent` / `_children`
  object references become indices.
-/

abbrev PStr := List Char

deriving instance DecidableEq for Except

/-- Python `permission.endswith(">")`. -/
def endsGt (s : PStr) : Bool := s.getLast? = some '>'

/-- Python `permission[:-1]` applied when the string ends with `>`:
the wildcard-stripping step shared by `exists`. -/
def strip (s : PStr) : PStr := if s.getLast? = some '>' then s.dropLast else s

/-- Python `".".join(keys)`. -/
def joinDot (L : List PStr) : PStr := List.intercalate ['.'] L

/-! ### Lemmas about splitting on `.` and joining with `.` -/

lemma splitOn_ne_nil (s : PStr) : s.splitOn '.' ≠ [] :=
  List.splitOnP_ne_nil _ s

lemma splitOnP_sep_not_mem (p : Char → Bool) (xs : List Char) :
    ∀ l ∈ xs.splitOnP p, ∀ a ∈ l, ¬ p a := by
  induction xs with
  | nil =>
    intro l hl a ha
    simp only [List.splitOnP_nil, List.mem_singleton] at hl
    subst hl
    exact absurd ha (List.not_mem_nil a)
  | cons c cs ih =>
    intro l hl a ha
    rw [List.splitOnP_cons] at hl
    by_cases h : p c
    · rw [if_pos h] at hl
      rcases List.mem_cons.1 hl with rfl | hl
      · exact absurd ha (List.not_mem_nil a)
      · exact ih l hl a ha
    · rw [if_neg h] at hl
      cases hsp : cs.splitOnP p with
      | nil => exact absurd hsp (List.splitOnP_ne_nil _ _)
      | cons h0 t =>
        rw [hsp] at hl
        simp only [List.modifyHead] at hl
        rcases List.mem_cons.1 hl with rfl | hl
        · rcases List.mem_cons.1 ha with rfl | ha
          · exact h
          · exact ih h0 (hsp ▸ List.mem_cons_self h0 t) a ha
        · exact ih l (hsp ▸ List.mem_cons_of_mem h0 hl) a ha

lemma mem_splitOn_not_dot {xs l : PStr} (h : l ∈ xs.splitOn '.') : '.' ∉ l := by
  intro hd
  have := splitOnP_sep_not_mem (· == '.') xs l h '.' hd
  simp at this

lemma joinDot_splitOn (s : PStr) : joinDot (s.splitOn '.') = s := by
  unfold joinDot
  exact List.intercalate_splitOn s '.'

lemma splitOn_joinDot {L : List PStr} (h2 : L ≠ []) (h : ∀ l ∈ L, '.' ∉ l) :
    (joinDot L).splitOn '.' = L := by
  unfold joinDot
  exact List.splitOn_intercalate L '.' h h2

lemma joinDot_single (a : PStr) : joinDot [a] = a := by
  simp [joinDot, List.intercalate]

lemma joinDot_cons_cons (a b : PStr) (L : List PStr) :
    joinDot (a :: b :: L) = a ++ '.' :: joinDot (b :: L) := by
  simp [joinDot, List.intercalate, List.intersperse_cons_cons]

lemma joinDot_cons_eq_append (a : PStr) (L : List PStr) :
    ∃ t, joinDot (a :: L) = a ++ t := by
  cases L with
  | nil => exact ⟨[], by simp [joinDot_single]⟩
  | cons b L' => exact ⟨'.' :: joinDot (b :: L'), joinDot_cons_cons a b L'⟩

lemma mem_joinDot_of_mem {c : Char} {l : PStr} {L : List PStr}
    (hl : l ∈ L) (hc : c ∈ l) : c ∈ joinDot L := by
  induction L with
  | nil => exact absurd hl (List.not_mem_nil l)
  | cons a L' ih =>
    cases L' with
    | nil =>
      rw [List.mem_singleton] at hl
      subst hl
      rwa [joinDot_single]
    | cons b L'' =>
      rw [joinDot_cons_cons, List.mem_append]
      rcases List.mem_cons.1 hl with rfl | hl
      · exact Or.inl hc
      · exact Or.inr (List.mem_cons_of_mem _ (ih hl))

lemma eq_dot_or_mem_of_mem_joinDot {c : Char} {L : List PStr}
    (h : c ∈ joinDot L) : c = '.' ∨ ∃ l ∈ L, c ∈ l := by
  induction L with
  | nil => exact absurd h (List.not_mem_nil c)
  | cons a L' ih =>
    cases L' with
    | nil =>
      rw [joinDot_single] at h
      exact Or.inr ⟨a, List.mem_singleton_self a, h⟩
    | cons b L'' =>
      rw [joinDot_cons_cons, List.mem_append] at h
      rcases h with h | h
      · exact Or.inr ⟨a, List.mem_cons_self _ _, h⟩
      · rcases List.mem_cons.1 h with rfl | h
        · exact Or.inl rfl
        · rcases ih h with h' | ⟨l, hl, hc⟩
          · exact Or.inl h'
          · exact Or.inr ⟨l, List.mem_cons_of_mem _ hl, hc⟩

lemma not_gt_joinDot {L : List PStr} (h : ∀ l ∈ L, '>' ∉ l) :
    '>' ∉ joinDot L := by
  intro hm
  rcases eq_dot_or_mem_of_mem_joinDot hm with h' | ⟨l, hl, hc⟩
  · simp at h'
  · exact h l hl hc

lemma strip_of_not_gt {s : PStr} (h : '>' ∉ s) : strip s = s := by
  unfold strip
  rw [if_neg]
  intro hg
  exact h (List.mem_of_getLast?_eq_some hg)

lemma headD_append_of_ne_nil {s : PStr} (t : PStr) (h : s ≠ []) (d : Char) :
    (s ++ t).headD d = s.headD d := by
  cases s with
  | nil => exact absurd rfl h
  | cons a s' => rfl

lemma joinDot_concat (L : List PStr) (x : PStr) :
    joinDot (L ++ [x]) = (if L = [] then [] else joinDot L ++ ['.']) ++ x := by
  induction L with
  | nil => simp [joinDot_single]
  | cons a L' ih =>
    cases L' with
    | nil => simp [joinDot_cons_cons, joinDot_single]
    | cons b L'' =>
      rw [if_neg (List.cons_ne_nil a (b :: L''))]
      have hx : (a :: b :: L'') ++ [x] = a :: (b :: (L'' ++ [x])) := by simp
      rw [List.cons_append] at ih
      rw [hx, joinDot_cons_cons, ih, if_neg (List.cons_ne_nil b L''), joinDot_cons_cons]
      simp

lemma chars_splitOn_subset {c : Char} {l s : PStr}
    (hl : l ∈ s.splitOn '.') (hc : c ∈ l) : c ∈ s := by
  have := mem_joinDot_of_mem hl hc
  rwa [joinDot_splitOn] at this

/-- If a join of dot-free pieces contains a blank piece, the blank piece is
still present after the wildcard-stripping step re-splits the join: stripping
only ever shortens a final nonempty piece ending in `>`. -/
lemma blank_persist {L : List PStr} (hmem : [] ∈ L) (hdot : ∀ l ∈ L, '.' ∉ l) :
    [] ∈ (strip (joinDot L)).splitOn '.' := by
  have hLne : L ≠ [] := List.ne_nil_of_mem hmem
  by_cases hg : (joinDot L).getLast? = some '>'
  · obtain ⟨L₀, last, rfl⟩ : ∃ L₀ last, L = L₀ ++ [last] :=
      ⟨L.dropLast, L.getLast hLne, (List.dropLast_concat_getLast hLne).symm⟩
    have hlast : last ≠ [] := by
      intro h0
      subst h0
      rw [joinDot_concat, List.append_nil] at hg
      by_cases h1 : L₀ = []
      · subst h1
        simp at hg
      · rw [if_neg h1, List.getLast?_concat] at hg
        simp at hg
    obtain ⟨y, rfl⟩ : ∃ y, last = y ++ ['>'] := by
      rw [joinDot_concat, List.getLast?_append] at hg
      cases hl2 : last.getLast? with
      | none => exact absurd (List.getLast?_eq_none_iff.1 hl2) hlast
      | some a =>
        rw [hl2] at hg
        simp only [Option.or_some, Option.some.injEq] at hg
        subst hg
        exact List.getLast?_eq_some_iff.1 hl2
    have hdoty : '.' ∉ y := fun hy =>
      hdot (y ++ ['>']) (List.mem_append_right L₀ (List.mem_singleton_self _))
        (List.mem_append_left _ hy)
    have hstrip : strip (joinDot (L₀ ++ [y ++ ['>']])) = joinDot (L₀ ++ [y]) := by
      rw [strip, if_pos hg, joinDot_concat, joinDot_concat]
      rw [← List.append_assoc, List.dropLast_concat]
    rw [hstrip, splitOn_joinDot (by simp) ?hdots]
    case hdots =>
      intro l hl
      rcases List.mem_append.1 hl with hl | hl
      · exact hdot l (List.mem_append_left _ hl)
      · rw [List.mem_singleton] at hl
        subst hl
        exact hdoty
    have : ([] : PStr) ∈ L₀ := by
      rcases List.mem_append.1 hmem with h | h
      · exact h
      · rw [List.mem_singleton] at h
        exact absurd h.symm (by simp)
    exact List.mem_append_left _ this
  · rw [strip, if_neg hg, splitOn_joinDot hLne hdot]
    exact hmem

/-! ### The permission catalog tree (`permagate/permission.py`, class `Permission`)

`Permission.__init__` stores `_key` (`None`/blank for the root), `_parent`,
`_children`; `name` and `description` are display metadata opaque to all the
logic verified here and are omitted from the tree model. The tree and its
child list are a mutual inductive so that `exists` is structural recursion. -/

mutual
inductive Permission : Type where
  | node (seg : PStr) (children : PermissionList)
  deriving DecidableEq
inductive PermissionList : Type where
  | nil : PermissionList
  | cons (t : Permission) (ts : PermissionList)
  deriving DecidableEq
end

/-- The stored `_key` (`None` and `""` collapse to `[]`). -/
def Permission.seg : Permission → PStr
  | .node s _ => s

def Permission.children : Permission → PermissionList
  | .node _ c => c

/-- Python property `key`: `return self._key or "*"`. -/
def Permission.key (t : Permission) : PStr := if t.seg = [] then ['*'] else t.seg

/-- Python property `is_root`: `return not self._key`. -/
def Permission.is_root (t : Permission) : Bool := t.seg = []

/-- Python `Permission.__init__` assertion checks on a key (the metadata
parameters are opaque and omitted): a falsy key passes all three asserts. -/
def initKeyChecks (key : PStr) : Except String Unit :=
  if ¬(key = [] ∨ '.' ∉ key) then
    .error "A permission key must be equivalent to one permission string segment"
  else if ¬(key = [] ∨ '>' ∉ key) then
    .error "Permission keys cannot contain inclusive wildcards"
  else if ¬(key = [] ∨ '*' ∉ key) then
    .error "The asterisk character is reserved"
  else .ok ()

mutual
/-- Python `Permission.exists(self, permission)`, translated line by line:
strip one trailing `>`, assert the string does not start with `>`, assert a
string starting with `*` is exactly `*`, split on `.`, assert the first
segment is non-blank, then compare against `self.key` and recurse into the
children on the re-joined remaining segments. -/
def Permission.exists' (t : Permission) (permission0 : PStr) : Except String Bool :=
  let permission := strip permission0
  if permission.headD ' ' = '>' then
    .error "Permission strings cannot start with an inclusive wildcard"
  else if permission.headD ' ' = '*' ∧ permission ≠ ['*'] then
    .error "The root permission string may only contain the root permission reference"
  else
    let keys := permission.splitOn '.'
    if keys.length ≠ 0 then
      if (keys.headD []).length = 0 then
        .error "Permission string segments cannot be blank"
      else
        let key_matches : Bool := keys.headD [] = t.key
        if key_matches || t.is_root then
          let keys' := if key_matches then keys.tail else keys
          if keys'.length ≠ 0 then
            match t with
            | .node _ children => Permission.existsList children (joinDot keys')
          else if key_matches then .ok true
          else .ok false
        else .ok false
    else .ok false

/-- The `for child in self._children: if child.exists(permission): return True`
loop inside `Permission.exists`; a child's `AssertionError` propagates, and
falling out of the loop reaches the final `return False`. -/
def Permission.existsList (f : PermissionList) (permission : PStr) : Except String Bool :=
  match f with
  | .nil => .ok false
  | .cons c rest =>
    match Permission.exists' c permission with
    | .error e => .error e
    | .ok true => .ok true
    | .ok false => Permission.existsList rest permission
end

/-! ### The grant matcher (`permagate/core.py`, `_has_permission`) -/

/-- Python `_has_permission(queryset, permission, wildcard_only=False)`:
the queryset is the list of grant permission strings; `filter(...).exists()`
and the truthiness test on `filter(permission="*")` are membership tests, and
`filter(permission__iendswith=">")` keeps grants whose last character is `>`
(case-insensitivity is vacuous for `>`). -/
def _has_permission (queryset : List PStr) (permission : PStr)
    (wildcard_only : Bool) : Except String Bool :=
  if '>' ∈ permission then
    .error "A required permission cannot contain an inclusive wildcard"
  else if permission.length = 0 then
    .error "The permission string cannot be empty"
  else
    let found := (!wildcard_only &&
        (decide (permission ∈ queryset) || decide (['*'] ∈ queryset))) ||
      decide ((permission ++ ['>']) ∈ queryset)
    if found then .ok true
    else
      let path_segments := (permission.splitOn '.').dropLast
      if hseg : path_segments = [] then .ok false
      else
        let permission' := joinDot path_segments
        let queryset' := if !wildcard_only then queryset.filter endsGt else queryset
        _has_permission queryset' permission' true
termination_by (permission.splitOn '.').length
decreasing_by
  have hsub : ∀ l ∈ (permission.splitOn '.').dropLast, '.' ∉ l := fun l hl =>
    mem_splitOn_not_dot (List.dropLast_subset _ hl)
  rw [splitOn_joinDot hseg hsub, List.length_dropLast]
  exact Nat.sub_lt (List.length_pos.2 (splitOn_ne_nil permission)) Nat.one_pos

/-- `GrantMatcher.covers`: `_has_permission` as called at the top level,
with `wildcard_only` defaulted to `False`. -/
def covers (queryset : List PStr) (permission : PStr) : Except String Bool :=
  _has_permission queryset permission false

/-! ### The orchestration (`permagate/core.py`, `has_permission`)

The storage collaborators are abstracted exactly at their interface: the
user's own grant strings, and the list of each group's grant strings (in
group iteration order). `_load_permission_root` is the out-of-scope dynamic
module loader; the fully built catalog root is passed in directly. -/

/-- The `for group in user.groups.all()` loop of `has_permission`. -/
def groupsCheck (groups : List (List PStr)) (permission : PStr) :
    Except String Bool :=
  match groups with
  | [] => .ok false
  | g :: rest =>
    match covers g permission with
    | .error e => .error e
    | .ok true => .ok true
    | .ok false => groupsCheck rest permission

/-- Python `has_permission(user, permission)`: gate on `root.exists`, then the
user's own grants, then each group's grants, else `False` (the
`logger.warning` on a missing permission is a side effect with no return
value). -/
def has_permission (root : Permission) (userGrants : List PStr)
    (groupGrants : List (List PStr)) (permission : PStr) : Except String Bool :=
  match Permission.exists' root permission with
  | .error e => .error e
  | .ok true =>
    match covers userGrants permission with
    | .error e => .error e
    | .ok false => groupsCheck groupGrants permission
    | .ok true => .ok true
  | .ok false => .ok false

/-! ### The arena view of `Permission` for the mutating `register` method -/

structure PermissionNode where
  key : PStr := []
  parent : Option Nat := none
  children : List Nat := []
  deriving DecidableEq, Inhabited, Repr

/-- Python property `key` on the arena view: `self._key or "*"`. -/
def PermissionNode.keyProp (n : PermissionNode) : PStr :=
  if n.key = [] then ['*'] else n.key

abbrev Arena := List PermissionNode

def getNode (a : Arena) (i : Nat) : PermissionNode := a[i]?.getD default

/-- The `for permission in permissions` loop of `Permission.register`:
`assert permission.key` then `permission._parent = self`. -/
def registerLoop (self : Nat) : Arena → List Nat → Except String Arena
  | a, [] => .ok a
  | a, i :: rest =>
    if (getNode a i).keyProp = [] then
      .error "The root permission cannot be registered as a child"
    else
      registerLoop self (a.set i { getNode a i with parent := some self }) rest

/-- Python `Permission.register(self, permissions)`: run the loop, then
`self._children += permissions`. -/
def register (a : Arena) (self : Nat) (permissions : List Nat) :
    Except String Arena :=
  match registerLoop self a permissions with
  | .error e => .error e
  | .ok a' =>
    .ok (a'.set self
      { getNode a' self with children := (getNode a' self).children ++ permissions })

/-! ### Well-formedness of paths and catalogs, and spec-side reachability -/

/-- One segment of a well-formed requested permission path: non-empty, and
free of the separator and the inclusive-wildcard marker. -/
def GoodSeg (s : PStr) : Prop := s ≠ [] ∧ '.' ∉ s ∧ '>' ∉ s

/-- A well-formed requested permission path `p1.p2.....pk`, `k ≥ 1`, given by
its segments. -/
def GoodPath (segs : List PStr) : Prop := segs ≠ [] ∧ ∀ s ∈ segs, GoodSeg s

instance (s : PStr) : Decidable (GoodSeg s) :=
  decidable_of_iff (s ≠ [] ∧ '.' ∉ s ∧ '>' ∉ s) Iff.rfl

instance (segs : List PStr) : Decidable (GoodPath segs) :=
  decidable_of_iff (segs ≠ [] ∧ ∀ s ∈ segs, GoodSeg s) Iff.rfl

/-- The ancestor-climbing disjunct of the matcher specification: some prefix
of the segments, joined with `.` and suffixed with `>`, is a grant. -/
def ancestorHit (G : List PStr) (segs : List PStr) : Bool :=
  (List.range segs.length).any fun i =>
    decide (joinDot (segs.take (i + 1)) ++ ['>'] ∈ G)

mutual
/-- The catalog invariant for every node strictly below the receiver: a
non-empty segment free of `.`, `>` and `*` (the `__init__` assertions plus
non-rootness), recursively. -/
def wfStrict : Permission → Bool
  | .node seg children =>
    (decide (seg ≠ []) && decide ('.' ∉ seg) && decide ('>' ∉ seg) &&
      decide ('*' ∉ seg)) && wfList children
def wfList : PermissionList → Bool
  | .nil => true
  | .cons t ts => wfStrict t && wfList ts
end

/-- The catalog invariant at the receiver itself: the receiver is either a
root (blank segment) or carries a legal segment, and every strict descendant
is well-formed. -/
def wfNode (t : Permission) : Bool :=
  (decide (t.seg = []) || (decide ('.' ∉ t.seg) && decide ('>' ∉ t.seg) &&
    decide ('*' ∉ t.seg))) && wfList t.children

mutual
/-- Spec-side existence semantics (the comparator for the refinement claim on
`exists`): a path, given by its segments, names a real node reachable from the
receiver by consuming each segment in order, the root matching any first
segment without consuming it. -/
def specReaches : Permission → List PStr → Bool
  | .node seg children, segs =>
    if seg = [] then specReachesList children segs
    else
      match segs with
      | [] => false
      | s :: rest =>
        decide (s = seg) && (rest.isEmpty || specReachesList children rest)
def specReachesList : PermissionList → List PStr → Bool
  | .nil, _ => false
  | .cons t rest, segs => specReaches t segs || specReachesList rest segs
end

/-- The literal catalog of the repository's test scenario
(`permagate.test_permissions`): root → `test` → {`sub1`, `sub2`, `sub3`},
and sibling `test2`. -/
def sampleTree : Permission :=
  .node [] (.cons (.node "test".data (.cons (.node "sub1".data .nil)
    (.cons (.node "sub2".data .nil) (.cons (.node "sub3".data .nil) .nil))))
    (.cons (.node "test2".data .nil) .nil))

/-! ### Small list auxiliaries -/

lemma take_append_left {α : Type} {l₁ l₂ : List α} {n : Nat}
    (h : n ≤ l₁.length) : (l₁ ++ l₂).take n = l₁.take n := by
  induction l₁ generalizing n with
  | nil =>
    have : n = 0 := Nat.le_zero.1 h
    subst this
    rfl
  | cons a t ih =>
    cases n with
    | zero => rfl
    | succ m =>
      simp only [List.cons_append, List.take_succ_cons]
      rw [ih (Nat.le_of_succ_le_succ h)]

lemma any_congr_mem {α : Type} {l : List α} {f g : α → Bool}
    (h : ∀ a ∈ l, f a = g a) : l.any f = l.any g := by
  induction l with
  | nil => rfl
  | cons a t ih =>
    simp only [List.any_cons, h a (List.mem_cons_self a t),
      ih fun b hb => h b (List.mem_cons_of_mem a hb)]

lemma perm_any_eq {α : Type} {l₁ l₂ : List α} (h : l₁.Perm l₂) (f : α → Bool) :
    l₁.any f = l₂.any f := by
  cases h1 : l₁.any f <;> cases h2 : l₂.any f
  · rfl
  · rw [List.any_eq_true] at h2
    obtain ⟨x, hx, hfx⟩ := h2
    have : l₁.any f = true := List.any_eq_true.2 ⟨x, h.mem_iff.2 hx, hfx⟩
    rw [h1] at this
    exact absurd this (by simp)
  · rw [List.any_eq_true] at h1
    obtain ⟨x, hx, hfx⟩ := h1
    have : l₂.any f = true := List.any_eq_true.2 ⟨x, h.mem_iff.1 hx, hfx⟩
    rw [h2] at this
    exact absurd this (by simp)
  · rfl

/-! ### Characterisation of the grant matcher -/

lemma ancestorHit_concat (G : List PStr) (L : List PStr) (x : PStr) :
    ancestorHit G (L ++ [x]) =
      (ancestorHit G L || decide (joinDot (L ++ [x]) ++ ['>'] ∈ G)) := by
  unfold ancestorHit
  rw [List.length_append, List.length_singleton, List.range_succ, List.any_append]
  congr 1
  · apply any_congr_mem
    intro i hi
    rw [List.mem_range] at hi
    rw [take_append_left (Nat.succ_le_of_lt hi)]
  · simp only [List.any_cons, List.any_nil, Bool.or_false]
    congr 2
    rw [show L.length + 1 = (L ++ [x]).length by simp, List.take_length]

lemma joinDot_ne_nil {L : List PStr} (hne : L ≠ []) (h : ∀ l ∈ L, l ≠ []) :
    joinDot L ≠ [] := by
  obtain ⟨s, rest, rfl⟩ := List.exists_cons_of_ne_nil hne
  obtain ⟨t, ht⟩ := joinDot_cons_eq_append s rest
  rw [ht]
  intro h0
  exact h s (List.mem_cons_self s rest) (List.append_eq_nil.1 h0).1

lemma ancestorHit_nil (G : List PStr) : ancestorHit G [] = false := rfl

lemma ancestorHit_filter (G : List PStr) (L : List PStr) :
    ancestorHit (G.filter endsGt) L = ancestorHit G L := by
  unfold ancestorHit
  apply any_congr_mem
  intro i hi
  simp [List.mem_filter, endsGt, List.getLast?_concat]

/-- The `wildcard_only = True` phase of `_has_permission`: pure ancestor
climbing over the remaining prefixes. -/
lemma hasPermission_wildcard (G : List PStr) (segs : List PStr) :
    GoodPath segs →
      _has_permission G (joinDot segs) true = .ok (ancestorHit G segs) := by
  induction segs using List.reverseRecOn with
  | nil => exact fun h => absurd rfl h.1
  | append_singleton L x ih =>
    intro h
    obtain ⟨-, hgood⟩ := h
    have hdots : ∀ l ∈ L ++ [x], '.' ∉ l := fun l hl => (hgood l hl).2.1
    have hnonempty : ∀ l ∈ L ++ [x], l ≠ [] := fun l hl => (hgood l hl).1
    have hne : L ++ [x] ≠ [] := by simp
    have hsplit : (joinDot (L ++ [x])).splitOn '.' = L ++ [x] :=
      splitOn_joinDot hne hdots
    have hnogt : '>' ∉ joinDot (L ++ [x]) :=
      not_gt_joinDot fun l hl => (hgood l hl).2.2
    have hlen : ¬(joinDot (L ++ [x])).length = 0 := by
      rw [List.length_eq_zero]
      exact joinDot_ne_nil hne hnonempty
    rw [_has_permission, if_neg hnogt, if_neg hlen]
    simp only [Bool.not_true, Bool.false_and, Bool.false_or]
    by_cases hmem : (joinDot (L ++ [x]) ++ ['>']) ∈ G
    · rw [if_pos (decide_eq_true hmem)]
      rw [ancestorHit_concat, decide_eq_true hmem, Bool.or_true]
    · rw [if_neg (by simp [hmem])]
      simp only [hsplit, List.dropLast_concat]
      rcases eq_or_ne L [] with rfl | hLne
      · rw [dif_pos rfl]
        rw [ancestorHit_concat, ancestorHit_nil, decide_eq_false hmem]
        rfl
      · rw [dif_neg hLne]
        have ihL := ih ⟨hLne, fun l hl => hgood l (List.mem_append_left _ hl)⟩
        simp only [Bool.not_true, Bool.false_eq_true, if_false, ihL]
        rw [ancestorHit_concat, decide_eq_false hmem, Bool.or_false]

/-- Full characterisation of `covers`: root wildcard, exact grant, or an
inclusive-wildcard grant on some non-empty prefix of the segments. -/
lemma covers_spec (G : List PStr) (segs : List PStr) (h : GoodPath segs) :
    covers G (joinDot segs) =
      .ok (decide (['*'] ∈ G) || decide (joinDot segs ∈ G) || ancestorHit G segs) := by
  obtain ⟨hne, hgood⟩ := h
  have hdots : ∀ l ∈ segs, '.' ∉ l := fun l hl => (hgood l hl).2.1
  have hnonempty : ∀ l ∈ segs, l ≠ [] := fun l hl => (hgood l hl).1
  have hsplit : (joinDot segs).splitOn '.' = segs := splitOn_joinDot hne hdots
  have hnogt : '>' ∉ joinDot segs := not_gt_joinDot fun l hl => (hgood l hl).2.2
  have hlen : ¬(joinDot segs).length = 0 := by
    rw [List.length_eq_zero]
    exact joinDot_ne_nil hne hnonempty
  rw [covers, _has_permission, if_neg hnogt, if_neg hlen]
  simp only [Bool.not_false, Bool.true_and]
  obtain ⟨L, x, rfl⟩ : ∃ L x, segs = L ++ [x] := by
    rcases List.eq_nil_or_concat segs with rfl | ⟨L, x, hLx⟩
    · exact absurd rfl hne
    · exact ⟨L, x, by rw [hLx, List.concat_eq_append]⟩
  by_cases hfound : ((decide (joinDot (L ++ [x]) ∈ G) || decide (['*'] ∈ G)) ||
      decide ((joinDot (L ++ [x]) ++ ['>']) ∈ G)) = true
  · rw [if_pos hfound]
    rcases Bool.or_eq_true_iff.1 hfound with hf | hf
    · rcases Bool.or_eq_true_iff.1 hf with hf | hf
      · rw [hf]
        simp
      · rw [hf]
        simp
    · rw [ancestorHit_concat, hf]
      simp
  · rw [if_neg hfound]
    simp only [Bool.or_eq_true, decide_eq_true_eq, not_or] at hfound
    obtain ⟨⟨hmp, hmstar⟩, hmgt⟩ := hfound
    simp only [hsplit, List.dropLast_concat]
    rcases eq_or_ne L [] with rfl | hLne
    · rw [dif_pos rfl]
      rw [ancestorHit_concat, ancestorHit_nil, decide_eq_false hmp,
        decide_eq_false hmstar, decide_eq_false hmgt]
      rfl
    · rw [dif_neg hLne]
      have ihL := hasPermission_wildcard (G.filter endsGt) L
        ⟨hLne, fun l hl => hgood l (List.mem_append_left _ hl)⟩
      simp only [Bool.not_false, if_true, ihL, ancestorHit_filter]
      rw [ancestorHit_concat, decide_eq_false hmp, decide_eq_false hmstar,
        decide_eq_false hmgt, Bool.or_false]
      simp

lemma tail_subset' {α : Type} (l : List α) : l.tail ⊆ l := by
  cases l with
  | nil => exact fun a ha => ha
  | cons x t => exact fun a ha => List.mem_cons_of_mem x ha

/-- `_has_permission` returns a boolean (raises no assertion) whenever the
requested string has no `>` and a non-blank first segment. -/
lemma hasPermission_no_error : ∀ (n : Nat) (G : List PStr) (p : PStr) (w : Bool),
    (p.splitOn '.').length ≤ n → '>' ∉ p → (p.splitOn '.').headD [] ≠ [] →
    ∃ b, _has_permission G p w = .ok b := by
  intro n
  induction n with
  | zero =>
    intro G p w hlen _ _
    have := List.length_pos.2 (splitOn_ne_nil p)
    omega
  | succ n ih =>
    intro G p w hlen hgt hhead
    have hpne : p ≠ [] := by
      intro h0
      subst h0
      exact hhead rfl
    have hplen : ¬p.length = 0 := by
      rw [List.length_eq_zero]
      exact hpne
    rw [_has_permission, if_neg hgt, if_neg hplen]
    by_cases hfound : ((!w && (decide (p ∈ G) || decide (['*'] ∈ G))) ||
        decide ((p ++ ['>']) ∈ G)) = true
    · rw [if_pos hfound]
      exact ⟨true, rfl⟩
    · rw [if_neg hfound]
      rcases eq_or_ne ((p.splitOn '.').dropLast) [] with hnil | hnnil
      · rw [dif_pos hnil]
        exact ⟨false, rfl⟩
      · rw [dif_neg hnnil]
        obtain ⟨h0, t0, hsp⟩ :=
          List.exists_cons_of_ne_nil (splitOn_ne_nil p)
        have ht0 : t0 ≠ [] := by
          intro h0'
          rw [hsp, h0'] at hnnil
          exact hnnil rfl
        have hdrop : (p.splitOn '.').dropLast = h0 :: t0.dropLast := by
          rw [hsp, List.dropLast_cons_of_ne_nil ht0]
        have hsub : ∀ l ∈ (p.splitOn '.').dropLast, '.' ∉ l := fun l hl =>
          mem_splitOn_not_dot (List.dropLast_subset _ hl)
        have hresplit : (joinDot ((p.splitOn '.').dropLast)).splitOn '.' =
            (p.splitOn '.').dropLast := splitOn_joinDot hnnil hsub
        have hlen' : ((joinDot ((p.splitOn '.').dropLast)).splitOn '.').length ≤ n := by
          rw [hresplit, List.length_dropLast]
          have : 0 < (p.splitOn '.').length := List.length_pos.2 (splitOn_ne_nil p)
          omega
        have hgt' : '>' ∉ joinDot ((p.splitOn '.').dropLast) := by
          apply not_gt_joinDot
          intro l hl hc
          exact hgt (chars_splitOn_subset (List.dropLast_subset _ hl) hc)
        have hhead' : ((joinDot ((p.splitOn '.').dropLast)).splitOn '.').headD [] ≠ [] := by
          rw [hresplit, hdrop]
          rw [hsp] at hhead
          exact hhead
        exact ih _ _ true hlen' hgt' hhead'

mutual
/-- `Permission.exists` never returns `True` for a string whose stripped form
contains a blank dot-separated segment: a blank segment can never equal any
node key (keys are non-blank or the reserved `*`), and re-joining and
re-stripping in recursive calls preserves the blank segment. -/
theorem exists_blank (t : Permission) (s : PStr)
    (hb : [] ∈ (strip s).splitOn '.') : Permission.exists' t s ≠ .ok true := by
  rw [Permission.exists']
  simp only []
  by_cases h1 : (strip s).headD ' ' = '>'
  · rw [if_pos h1]
    simp
  · rw [if_neg h1]
    by_cases h2 : (strip s).headD ' ' = '*' ∧ strip s ≠ ['*']
    · rw [if_pos h2]
      simp
    · rw [if_neg h2]
      rw [if_pos (Nat.pos_iff_ne_zero.1 (List.length_pos.2 (splitOn_ne_nil (strip s))))]
      by_cases h3 : (((strip s).splitOn '.').headD []).length = 0
      · rw [if_pos h3]
        simp
      · rw [if_neg h3]
        have hheadne : ((strip s).splitOn '.').headD [] ≠ [] := by
          intro h0
          rw [h0] at h3
          exact h3 rfl
        have hbtail : [] ∈ ((strip s).splitOn '.').tail := by
          obtain ⟨h0, t0, hsp⟩ := List.exists_cons_of_ne_nil (splitOn_ne_nil (strip s))
          rw [hsp]
          rw [hsp] at hb hheadne
          rcases List.mem_cons.1 hb with h' | h'
          · exact absurd h'.symm (by simpa using hheadne)
          · exact h'
        by_cases h4 : (decide (((strip s).splitOn '.').headD [] = t.key) ||
            t.is_root) = true
        · rw [if_pos h4]
          by_cases hkm : ((strip s).splitOn '.').headD [] = t.key
          · rw [decide_eq_true hkm, if_pos rfl]
            have hkne : ((strip s).splitOn '.').tail.length ≠ 0 := fun h0 =>
              List.ne_nil_of_mem hbtail (List.length_eq_zero.1 h0)
            rw [if_pos hkne]
            cases t with
            | node seg children =>
              exact existsList_blank children _ (blank_persist hbtail fun l hl =>
                mem_splitOn_not_dot (tail_subset' _ hl))
          · rw [decide_eq_false hkm, if_neg Bool.false_ne_true]
            have hkne : ((strip s).splitOn '.').length ≠ 0 := fun h0 =>
              splitOn_ne_nil _ (List.length_eq_zero.1 h0)
            rw [if_pos hkne]
            cases t with
            | node seg children =>
              exact existsList_blank children _ (blank_persist hb fun l hl =>
                mem_splitOn_not_dot hl)
        · rw [if_neg h4]
          simp

theorem existsList_blank (f : PermissionList) (s : PStr)
    (hb : [] ∈ (strip s).splitOn '.') : Permission.existsList f s ≠ .ok true := by
  cases f with
  | nil =>
    rw [Permission.existsList]
    simp
  | cons c rest =>
    rw [Permission.existsList]
    cases heq : Permission.exists' c s with
    | error e => simp
    | ok b =>
      cases b with
      | true => exact absurd heq (exists_blank c s hb)
      | false => exact existsList_blank rest s hb
end

/-- A well-formed (already stripped) query string for `Permission.exists`:
no inclusive wildcard anywhere, and every dot-separated segment non-blank and
not starting with the root reference. -/
def goodQuery (p : PStr) : Prop :=
  '>' ∉ p ∧ ∀ seg ∈ p.splitOn '.', seg ≠ [] ∧ seg.headD ' ' ≠ '*'

instance (p : PStr) : Decidable (goodQuery p) :=
  decidable_of_iff
    ('>' ∉ p ∧ ∀ seg ∈ p.splitOn '.', seg ≠ [] ∧ seg.headD ' ' ≠ '*') Iff.rfl

lemma goodQuery_ne_nil {p : PStr} (h : goodQuery p) : p ≠ [] := by
  intro h0
  subst h0
  exact (h.2 [] (by simp [List.splitOn_nil])).1 rfl

lemma headD_mem {α : Type} (d : α) {p : List α} (h : p ≠ []) : p.headD d ∈ p := by
  cases p with
  | nil => exact absurd rfl h
  | cons a t => exact List.mem_cons_self a t

lemma headD_of_first_segment {p : PStr} (d : Char)
    (h0 : ((p.splitOn '.').headD []) ≠ []) :
    p.headD d = ((p.splitOn '.').headD []).headD d := by
  obtain ⟨s0, rest, hsp⟩ := List.exists_cons_of_ne_nil (splitOn_ne_nil p)
  obtain ⟨t, ht⟩ := joinDot_cons_eq_append s0 rest
  rw [hsp] at h0
  conv_lhs => rw [← joinDot_splitOn p, hsp, ht]
  rw [hsp, headD_append_of_ne_nil t (by simpa using h0) d]
  rfl

lemma goodQuery_not_head_gt {p : PStr} (h : goodQuery p) : ¬p.headD ' ' = '>' := by
  intro hh
  exact h.1 (hh ▸ headD_mem ' ' (goodQuery_ne_nil h))

lemma goodQuery_not_head_star {p : PStr} (h : goodQuery p) : ¬p.headD ' ' = '*' := by
  have hmem : ((p.splitOn '.').headD []) ∈ p.splitOn '.' :=
    headD_mem [] (splitOn_ne_nil p)
  have h0 : ((p.splitOn '.').headD []) ≠ [] := (h.2 _ hmem).1
  rw [headD_of_first_segment ' ' h0]
  exact (h.2 _ hmem).2

lemma goodQuery_tail_join {p : PStr} (hq : goodQuery p) {keys' : List PStr}
    (hsub : ∀ l ∈ keys', l ∈ p.splitOn '.') (hne : keys' ≠ []) :
    goodQuery (strip (joinDot keys')) := by
  have hdots : ∀ l ∈ keys', '.' ∉ l := fun l hl => mem_splitOn_not_dot (hsub l hl)
  have hgt : '>' ∉ joinDot keys' := by
    apply not_gt_joinDot
    intro l hl hc
    exact hq.1 (chars_splitOn_subset (hsub l hl) hc)
  rw [strip_of_not_gt hgt]
  refine ⟨hgt, ?_⟩
  rw [splitOn_joinDot hne hdots]
  exact fun seg hs => hq.2 seg (hsub seg hs)

mutual
/-- `Permission.exists` raises no assertion on a well-formed query: it always
returns a boolean. -/
theorem exists_good (t : Permission) (s : PStr) (hq : goodQuery (strip s)) :
    ∃ b, Permission.exists' t s = .ok b := by
  rw [Permission.exists']
  simp only []
  rw [if_neg (goodQuery_not_head_gt hq)]
  rw [if_neg (fun hc => goodQuery_not_head_star hq hc.1)]
  rw [if_pos (Nat.pos_iff_ne_zero.1 (List.length_pos.2 (splitOn_ne_nil (strip s))))]
  have hmem0 : ((strip s).splitOn '.').headD [] ∈ (strip s).splitOn '.' :=
    headD_mem [] (splitOn_ne_nil (strip s))
  rw [if_neg (fun h0 => (hq.2 _ hmem0).1 (List.length_eq_zero.1 h0))]
  by_cases hkm : ((strip s).splitOn '.').headD [] = t.key
  · rw [decide_eq_true hkm, Bool.true_or, if_pos rfl, if_pos rfl]
    by_cases htail : (((strip s).splitOn '.').tail).length ≠ 0
    · rw [if_pos htail]
      cases t with
      | node seg children =>
        exact existsList_good children _ (goodQuery_tail_join hq
          (fun l hl => tail_subset' _ hl)
          (fun h0 => htail (by rw [h0]; rfl)))
    · rw [if_neg htail, if_pos rfl]
      exact ⟨true, rfl⟩
  · rw [decide_eq_false hkm, Bool.false_or]
    by_cases hroot : t.is_root = true
    · rw [if_pos hroot, if_neg Bool.false_ne_true]
      have hkne : ((strip s).splitOn '.').length ≠ 0 := fun h0 =>
        splitOn_ne_nil _ (List.length_eq_zero.1 h0)
      rw [if_pos hkne]
      cases t with
      | node seg children =>
        exact existsList_good children _ (goodQuery_tail_join hq
          (fun l hl => hl) (splitOn_ne_nil _))
    · rw [if_neg hroot]
      exact ⟨false, rfl⟩

theorem existsList_good (f : PermissionList) (s : PStr)
    (hq : goodQuery (strip s)) : ∃ b, Permission.existsList f s = .ok b := by
  cases f with
  | nil => exact ⟨false, rfl⟩
  | cons c rest =>
    rw [Permission.existsList]
    obtain ⟨b, hb⟩ := exists_good c s hq
    rw [hb]
    cases b with
    | true => exact ⟨true, rfl⟩
    | false => exact existsList_good rest s hq
end

/-- `Permission.exists` on the literal root reference always returns a
boolean: `True` exactly on a node whose key is `*`. -/
theorem exists_star (t : Permission) : ∃ b, Permission.exists' t ['*'] = .ok b := by
  rw [Permission.exists']
  simp only []
  have hstrip : strip ['*'] = ['*'] := by decide
  rw [hstrip]
  rw [if_neg (by decide), if_neg (by decide)]
  have hsp : (['*'] : PStr).splitOn '.' = [['*']] := by decide
  rw [hsp]
  rw [if_pos (by decide), if_neg (by decide)]
  by_cases hkm : ([['*']].headD []) = t.key
  · rw [decide_eq_true hkm, Bool.true_or, if_pos rfl, if_pos rfl]
    rw [if_neg (by decide), if_pos rfl]
    exact ⟨true, rfl⟩
  · rw [decide_eq_false hkm, Bool.false_or]
    have hroot : ¬t.is_root = true := by
      intro hr
      apply hkm
      unfold Permission.is_root at hr
      unfold Permission.key
      rw [if_pos (by simpa using hr)]
      rfl
    rw [if_neg hroot]
    exact ⟨false, rfl⟩

lemma seg_node (seg : PStr) (children : PermissionList) :
    (Permission.node seg children).seg = seg := rfl

lemma children_node (seg : PStr) (children : PermissionList) :
    (Permission.node seg children).children = children := rfl

lemma wfList_cons {c : Permission} {rest : PermissionList}
    (h : wfList (.cons c rest) = true) :
    wfStrict c = true ∧ wfList rest = true := by
  rw [wfList] at h
  exact Bool.and_eq_true_iff.1 h

lemma wfNode_of_wfStrict {t : Permission} (h : wfStrict t = true) :
    wfNode t = true := by
  cases t with
  | node seg children =>
    rw [wfStrict] at h
    rw [wfNode]
    simp only [Bool.and_eq_true, decide_eq_true_eq, seg_node, children_node,
      Bool.or_eq_true] at h ⊢
    exact ⟨Or.inr ⟨⟨h.1.1.1.2, h.1.1.2⟩, h.1.2⟩, h.2⟩

lemma key_eq_star_iff {t : Permission} (hwf : wfNode t = true) :
    t.key = ['*'] ↔ t.is_root = true := by
  cases t with
  | node seg children =>
    rw [wfNode] at hwf
    simp only [Bool.and_eq_true, Bool.or_eq_true, decide_eq_true_eq,
      seg_node, children_node] at hwf
    unfold Permission.key Permission.is_root
    simp only [seg_node]
    constructor
    · intro hk
      by_cases hseg : seg = []
      · simp [hseg]
      · rw [if_neg hseg] at hk
        rcases hwf.1 with h | h
        · exact absurd h hseg
        · exact absurd (by rw [hk]; exact List.mem_singleton_self '*') h.2
    · intro hr
      rw [if_pos (by simpa using hr)]

lemma goodQuery_ne_star {p : PStr} (h : goodQuery p) : p ≠ ['*'] := by
  intro h0
  subst h0
  exact goodQuery_not_head_star h rfl

lemma goodQuery_head_ne_star {p : PStr} (h : goodQuery p) :
    ((p.splitOn '.').headD []) ≠ ['*'] := by
  have hmem : ((p.splitOn '.').headD []) ∈ p.splitOn '.' :=
    headD_mem [] (splitOn_ne_nil p)
  intro h0
  have := (h.2 _ hmem).2
  rw [h0] at this
  exact this rfl

lemma specReaches_node (seg : PStr) (children : PermissionList)
    (segs : List PStr) :
    specReaches (.node seg children) segs =
      if seg = [] then specReachesList children segs
      else
        match segs with
        | [] => false
        | s :: rest => decide (s = seg) && (rest.isEmpty || specReachesList children rest) := by
  rw [specReaches.eq_def]

mutual
/-- Characterisation of `Permission.exists` on a well-formed catalog node and
a well-formed query: after stripping one trailing `>`, the result is `True`
exactly when the stripped string is the literal root reference and the
receiver is the root, or the stripped segments reach a real node from the
receiver (`specReaches`). -/
theorem exists_spec (t : Permission) (s : PStr) (hwf : wfNode t = true)
    (hq : strip s = ['*'] ∨ goodQuery (strip s)) :
    Permission.exists' t s =
      .ok ((decide (strip s = ['*']) && t.is_root) ||
        specReaches t ((strip s).splitOn '.')) := by
  rcases hq with hstar | hq
  · rw [Permission.exists']
    simp only []
    rw [hstar]
    rw [if_neg (by decide), if_neg (by decide)]
    have hsp : (['*'] : PStr).splitOn '.' = [['*']] := by decide
    rw [hsp]
    rw [if_pos (by decide), if_neg (by decide)]
    by_cases hkm : ([['*']].headD []) = t.key
    · rw [decide_eq_true hkm, Bool.true_or, if_pos rfl, if_pos rfl]
      rw [if_neg (by decide), if_pos rfl]
      have hroot : t.is_root = true := (key_eq_star_iff hwf).1 hkm.symm
      rw [hroot]
      simp
    · rw [decide_eq_false hkm, Bool.false_or]
      have hroot : ¬t.is_root = true := fun hr =>
        hkm ((key_eq_star_iff hwf).2 hr).symm
      rw [if_neg hroot]
      cases t with
      | node seg children =>
        have hsegne : seg ≠ [] := by
          intro h0
          exact hroot (by simp [Permission.is_root, seg_node, h0])
        have hns : ¬(['*'] : PStr) = seg := by
          intro h0
          apply hkm
          unfold Permission.key
          rw [seg_node, if_neg hsegne, ← h0]
          rfl
        have hrootf : (Permission.node seg children).is_root = false := by
          rw [← Bool.not_eq_true]
          exact hroot
        rw [specReaches_node, if_neg hsegne]
        simp [hns, hrootf]
  · rw [Permission.exists']
    simp only []
    rw [if_neg (goodQuery_not_head_gt hq)]
    rw [if_neg (fun hc => goodQuery_not_head_star hq hc.1)]
    rw [if_pos (Nat.pos_iff_ne_zero.1 (List.length_pos.2 (splitOn_ne_nil (strip s))))]
    have hmem0 : ((strip s).splitOn '.').headD [] ∈ (strip s).splitOn '.' :=
      headD_mem [] (splitOn_ne_nil (strip s))
    rw [if_neg (fun h0 => (hq.2 _ hmem0).1 (List.length_eq_zero.1 h0))]
    have hstar : decide (strip s = ['*']) = false := decide_eq_false (goodQuery_ne_star hq)
    obtain ⟨h0, t0, hsp⟩ := List.exists_cons_of_ne_nil (splitOn_ne_nil (strip s))
    have hh0 : ((strip s).splitOn '.').headD [] = h0 := by rw [hsp]; rfl
    cases t with
    | node seg children =>
      have hwl : wfList children = true := by
        rw [wfNode] at hwf
        exact (Bool.and_eq_true_iff.1 hwf).2
      by_cases hsegnil : seg = []
      · subst hsegnil
        have hkey : (Permission.node [] children).key = ['*'] := by
          unfold Permission.key
          rw [seg_node, if_pos rfl]
        have hkm : ¬((strip s).splitOn '.').headD [] = (Permission.node [] children).key := by
          rw [hkey]
          exact goodQuery_head_ne_star hq
        rw [decide_eq_false hkm, Bool.false_or]
        have hroot : (Permission.node [] children).is_root = true := by
          simp [Permission.is_root, seg_node]
        rw [if_pos hroot, if_neg Bool.false_ne_true]
        have hkne : ((strip s).splitOn '.').length ≠ 0 := fun h0' =>
          splitOn_ne_nil _ (List.length_eq_zero.1 h0')
        rw [if_pos hkne]
        show Permission.existsList children (joinDot ((strip s).splitOn '.')) = _
        rw [joinDot_splitOn]
        have hstrip2 : strip (strip s) = strip s := strip_of_not_gt hq.1
        rw [existsList_spec children (strip s) hwl hq hstrip2]
        rw [hstar, Bool.false_and, Bool.false_or]
        rw [specReaches_node, if_pos rfl]
      · have hkey : (Permission.node seg children).key = seg := by
          unfold Permission.key
          rw [seg_node, if_neg hsegnil]
        have hroot : (Permission.node seg children).is_root = false := by
          simp [Permission.is_root, seg_node, hsegnil]
        rw [hstar, Bool.false_and, Bool.false_or]
        by_cases hkm : ((strip s).splitOn '.').headD [] = (Permission.node seg children).key
        · rw [decide_eq_true hkm, Bool.true_or, if_pos rfl, if_pos rfl]
          rw [hh0, hkey] at hkm
          by_cases htail : t0 = []
          · rw [hsp, htail]
            rw [if_neg (by simp), if_pos rfl]
            rw [specReaches_node, if_neg hsegnil]
            simp [hkm]
          · have htail' : (((strip s).splitOn '.').tail).length ≠ 0 := by
              rw [hsp]
              simpa [List.length_eq_zero] using htail
            rw [if_pos htail']
            show Permission.existsList children (joinDot (((strip s).splitOn '.').tail)) = _
            have hsub : ∀ l ∈ ((strip s).splitOn '.').tail, l ∈ (strip s).splitOn '.' :=
              fun l hl => tail_subset' _ hl
            have htne : ((strip s).splitOn '.').tail ≠ [] := by
              rw [hsp]
              simpa using htail
            have hgt2 : '>' ∉ joinDot (((strip s).splitOn '.').tail) := by
              apply not_gt_joinDot
              intro l hl hc
              exact hq.1 (chars_splitOn_subset (hsub l hl) hc)
            have hq2 := goodQuery_tail_join hq hsub htne
            rw [strip_of_not_gt hgt2] at hq2
            rw [existsList_spec children (joinDot (((strip s).splitOn '.').tail)) hwl hq2
              (strip_of_not_gt hgt2)]
            rw [splitOn_joinDot htne
              (fun l hl => mem_splitOn_not_dot (hsub l hl))]
            rw [hsp, specReaches_node, if_neg hsegnil]
            simp only [List.tail_cons]
            have hrestne : ¬(t0.isEmpty = true) := by
              simpa [List.isEmpty_iff] using htail
            simp [hkm, hrestne]
        · rw [decide_eq_false hkm, Bool.false_or, hroot, if_neg Bool.false_ne_true]
          rw [hh0, hkey] at hkm
          rw [hsp, specReaches_node, if_neg hsegnil]
          simp [hkm]

/-- Characterisation of the child loop of `Permission.exists` on a list of
well-formed strict subtrees and a well-formed already-stripped query. -/
theorem existsList_spec (f : PermissionList) (p : PStr) (hwf : wfList f = true)
    (hq : goodQuery p) (hstrip : strip p = p) :
    Permission.existsList f p = .ok (specReachesList f (p.splitOn '.')) := by
  cases f with
  | nil => rfl
  | cons c rest =>
    obtain ⟨hc, hrest⟩ := wfList_cons hwf
    rw [Permission.existsList]
    have hcs := exists_spec c p (wfNode_of_wfStrict hc) (Or.inr (by rw [hstrip]; exact hq))
    rw [hstrip] at hcs
    rw [decide_eq_false (goodQuery_ne_star hq), Bool.false_and, Bool.false_or] at hcs
    rw [hcs]
    rw [specReachesList]
    cases hsr : specReaches c (p.splitOn '.') with
    | true => rfl
    | false =>
      show Permission.existsList rest p = _
      rw [existsList_spec rest p hrest hq hstrip]
      rfl
end

/-! ### Characterisation of the orchestration -/

lemma covers_eq_ok_true_iff (G : List PStr) (segs : List PStr) (h : GoodPath segs) :
    covers G (joinDot segs) = .ok true ↔
      (decide (['*'] ∈ G) || decide (joinDot segs ∈ G) || ancestorHit G segs) = true := by
  rw [covers_spec G segs h]
  exact ⟨fun he => by injection he, fun hb => by rw [hb]⟩

lemma groupsCheck_spec (groups : List (List PStr)) (segs : List PStr)
    (h : GoodPath segs) :
    groupsCheck groups (joinDot segs) =
      .ok (groups.any fun g =>
        decide (['*'] ∈ g) || decide (joinDot segs ∈ g) || ancestorHit g segs) := by
  induction groups with
  | nil => rfl
  | cons g rest ih =>
    rw [groupsCheck, covers_spec g segs h]
    cases hb : (decide (['*'] ∈ g) || decide (joinDot segs ∈ g) || ancestorHit g segs) with
    | true =>
      simp only [List.any_cons, hb, Bool.true_or]
    | false =>
      simp only [List.any_cons, hb, Bool.false_or]
      exact ih

lemma has_permission_spec (root : Permission) (U : List PStr)
    (Gs : List (List PStr)) (segs : List PStr) (h : GoodPath segs)
    (hx : Permission.exists' root (joinDot segs) = .ok true) :
    has_permission root U Gs (joinDot segs) =
      .ok ((decide (['*'] ∈ U) || decide (joinDot segs ∈ U) || ancestorHit U segs) ||
        Gs.any fun g =>
          decide (['*'] ∈ g) || decide (joinDot segs ∈ g) || ancestorHit g segs) := by
  rw [has_permission, hx, covers_spec U segs h]
  cases hu : (decide (['*'] ∈ U) || decide (joinDot segs ∈ U) || ancestorHit U segs) with
  | true => rfl
  | false =>
    show groupsCheck Gs (joinDot segs) = _
    rw [groupsCheck_spec Gs segs h]
    rfl

/-! ### Lemmas about the arena `register` -/

lemma keyProp_ne_nil (n : PermissionNode) : n.keyProp ≠ [] := by
  unfold PermissionNode.keyProp
  by_cases h : n.key = []
  · rw [if_pos h]
    simp
  · rw [if_neg h]
    exact h

lemma getNode_set_self {a : Arena} {i : Nat} (n : PermissionNode)
    (h : i < a.length) : getNode (a.set i n) i = n := by
  simp [getNode, List.getElem?_set_self h]

lemma getNode_set_ne {a : Arena} {i j : Nat} (n : PermissionNode)
    (h : i ≠ j) : getNode (a.set j n) i = getNode a i := by
  simp [getNode, List.getElem?_set_ne (Ne.symm h)]

lemma registerLoop_parent (self : Nat) (perms : List Nat) : ∀ (a : Arena) (i : Nat),
    i < a.length → (i ∈ perms ∨ (getNode a i).parent = some self) →
    ∃ a', registerLoop self a perms = .ok a' ∧ a'.length = a.length ∧
      (getNode a' i).parent = some self := by
  induction perms with
  | nil =>
    intro a i hlen hmem
    rcases hmem with h | h
    · exact absurd h (List.not_mem_nil i)
    · exact ⟨a, rfl, rfl, h⟩
  | cons j rest ih =>
    intro a i hlen hmem
    rw [registerLoop, if_neg (keyProp_ne_nil _)]
    have hlen1 : (a.set j { getNode a j with parent := some self }).length = a.length := by
      simp
    have hmem1 : i ∈ rest ∨
        (getNode (a.set j { getNode a j with parent := some self }) i).parent =
          some self := by
      rcases hmem with h | h
      · rcases List.mem_cons.1 h with rfl | h
        · right
          rw [getNode_set_self _ hlen]
        · exact Or.inl h
      · right
        rcases eq_or_ne i j with rfl | hne
        · rw [getNode_set_self _ hlen]
        · rw [getNode_set_ne _ hne]
          exact h
    obtain ⟨a', h1, h2, h3⟩ := ih _ i (by rw [hlen1]; exact hlen) hmem1
    exact ⟨a', h1, by rw [h2, hlen1], h3⟩

/-! ### The claims -/

/-- Claim C1: for every grant set `G` and well-formed requested path
`p1.p2.....pk` (`k ≥ 1`, non-empty segments, no `>`), `covers` returns `True`
iff `*` is a grant, or the exact path is a grant, or for some prefix length
`i ∈ [1, k]` the dot-join of the first `i` segments suffixed with `>` is a
grant. -/
theorem covers_iff_star_or_exact_or_ancestor (G : List PStr) (segs : List PStr)
    (h : GoodPath segs) :
    covers G (joinDot segs) = .ok true ↔
      ['*'] ∈ G ∨ joinDot segs ∈ G ∨
        ∃ i, 1 ≤ i ∧ i ≤ segs.length ∧ joinDot (segs.take i) ++ ['>'] ∈ G := by
  rw [covers_eq_ok_true_iff G segs h]
  simp only [Bool.or_eq_true, decide_eq_true_eq, ancestorHit, List.any_eq_true,
    List.mem_range]
  constructor
  · rintro ((h1 | h2) | ⟨i, hi, hmem⟩)
    · exact Or.inl h1
    · exact Or.inr (Or.inl h2)
    · exact Or.inr (Or.inr ⟨i + 1, Nat.succ_le_succ (Nat.zero_le i),
        Nat.succ_le_of_lt hi, hmem⟩)
  · rintro (h1 | h2 | ⟨i, h1i, hik, hmem⟩)
    · exact Or.inl (Or.inl h1)
    · exact Or.inl (Or.inr h2)
    · refine Or.inr ⟨i - 1, by omega, ?_⟩
      have hi : i - 1 + 1 = i := by omega
      rw [hi]
      exact hmem

theorem covers_iff_star_or_exact_or_ancestor_witness :
    covers ["a>".data] (joinDot ["a".data, "b".data, "c".data]) = .ok true :=
  (covers_iff_star_or_exact_or_ancestor ["a>".data]
      ["a".data, "b".data, "c".data] (by decide)).2
    (Or.inr (Or.inr ⟨1, by decide, by decide, by decide⟩))

/-- Claim C2: on a well-formed catalog node and a well-formed query, `exists`
— after stripping at most one trailing `>` — returns `True` iff the stripped
string is the literal root reference `*` and the receiver is the tree root,
or the stripped string names a real node reachable from the receiver by
consuming each dot-separated segment in order, the root matching any first
segment without consuming it (`specReaches`, modelled from the
specification's wording). -/
theorem exists_refines_reachability (t : Permission) (s : PStr)
    (hwf : wfNode t = true) (hq : strip s = ['*'] ∨ goodQuery (strip s)) :
    Permission.exists' t s =
      .ok ((decide (strip s = ['*']) && t.is_root) ||
        specReaches t ((strip s).splitOn '.')) :=
  exists_spec t s hwf hq

theorem exists_refines_reachability_witness :
    Permission.exists' sampleTree "test.sub1>".data = .ok true := by
  have h := exists_refines_reachability sampleTree "test.sub1>".data (by decide)
    (Or.inr (by decide))
  rw [h]
  decide

/-- Claim C3: when the requested permission does not exist in the catalog,
`has_permission` returns `False` for every user grant set and every list of
group grant sets — including sets containing the root wildcard — without the
grant matcher affecting the outcome. -/
theorem catalog_gate_precedes_grants (root : Permission) (p : PStr)
    (h : Permission.exists' root p = .ok false) (U : List PStr)
    (Gs : List (List PStr)) : has_permission root U Gs p = .ok false := by
  rw [has_permission, h]

theorem catalog_gate_precedes_grants_witness :
    has_permission sampleTree ["*".data] [["*".data]] "test.sub4".data =
      .ok false :=
  catalog_gate_precedes_grants sampleTree "test.sub4".data (by decide)
    ["*".data] [["*".data]]

/-- Claim C4: when the requested well-formed permission exists in the
catalog, `has_permission` returns `True` iff the user's own grants cover it
or some group's grants cover it (inclusive OR over groups), and permuting the
group list never changes the result. -/
theorem check_iff_user_or_any_group (root : Permission) (U : List PStr)
    (Gs : List (List PStr)) (segs : List PStr) (h : GoodPath segs)
    (hx : Permission.exists' root (joinDot segs) = .ok true) :
    (has_permission root U Gs (joinDot segs) = .ok true ↔
      covers U (joinDot segs) = .ok true ∨
        ∃ g ∈ Gs, covers g (joinDot segs) = .ok true) ∧
    ∀ Gs', Gs.Perm Gs' →
      has_permission root U Gs' (joinDot segs) =
        has_permission root U Gs (joinDot segs) := by
  constructor
  · rw [has_permission_spec root U Gs segs h hx]
    constructor
    · intro he
      rcases Bool.or_eq_true_iff.1 (Except.ok.inj he) with hu | hg
      · exact Or.inl ((covers_eq_ok_true_iff U segs h).2 hu)
      · obtain ⟨g, hgmem, hgb⟩ := List.any_eq_true.1 hg
        exact Or.inr ⟨g, hgmem, (covers_eq_ok_true_iff g segs h).2 hgb⟩
    · intro hor
      rcases hor with hu | ⟨g, hgmem, hgc⟩
      · rw [(covers_eq_ok_true_iff U segs h).1 hu]
        rfl
      · have hany : (Gs.any fun g =>
            decide (['*'] ∈ g) || decide (joinDot segs ∈ g) ||
              ancestorHit g segs) = true :=
          List.any_eq_true.2 ⟨g, hgmem, (covers_eq_ok_true_iff g segs h).1 hgc⟩
        rw [hany, Bool.or_true]
  · intro Gs' hperm
    rw [has_permission_spec root U Gs segs h hx,
      has_permission_spec root U Gs' segs h hx,
      perm_any_eq hperm]

theorem check_iff_user_or_any_group_witness :
    has_permission sampleTree [] [["test.sub3".data]]
      (joinDot ["test".data, "sub3".data]) = .ok true := by
  refine (check_iff_user_or_any_group sampleTree [] [["test.sub3".data]]
    ["test".data, "sub3".data] (by decide) (by decide)).1.2
    (Or.inr ⟨["test.sub3".data], List.mem_singleton_self _, ?_⟩)
  rw [covers_spec _ _ (by decide)]
  decide

/-- Claim C5 (code bug): `register` is meant to reject a segmentless (root)
node as a child — its own assertion message says "The root permission cannot
be registered as a child" — but the assert tests the `key` property, which
coalesces a blank key to `*` and is therefore always truthy, so a root node
is accepted: it is attached as a child and its parent back-reference is set.
`initKeyChecks` shows a blank-key node is constructible. -/
theorem register_accepts_blank_key_child :
    initKeyChecks [] = .ok () ∧
    register [{ key := [] }, { key := [] }] 0 [1] =
      .ok [{ key := [], parent := none, children := [1] },
        { key := [], parent := some 0, children := [] }] := by
  exact ⟨by decide, by decide⟩

/-- Claim C6 counterexample: node `c` (index 2) is first registered under `a`
(index 0), then registered again under `b` (index 1); its parent afterwards
points at `b`, not at `a` — first registration does not win. -/
theorem register_reparents_counterexample :
    register [{ key := "a".data }, { key := "b".data }, { key := "c".data }]
        0 [2] =
      .ok [{ key := "a".data, parent := none, children := [2] },
        { key := "b".data }, { key := "c".data, parent := some 0 }] ∧
    register [{ key := "a".data, parent := none, children := [2] },
        { key := "b".data }, { key := "c".data, parent := some 0 }] 1 [2] =
      .ok [{ key := "a".data, parent := none, children := [2] },
        { key := "b".data, parent := none, children := [2] },
        { key := "c".data, parent := some 1 }] ∧
    (some 1 : Option Nat) ≠ some 0 :=
  ⟨by decide, by decide, by decide⟩

/-- Claim C6 amended: a node's parent back-reference is overwritten by every
registration naming it — the last registration wins: after
`register a self perms` every node listed in `perms` has its parent set to
`self`, regardless of any previously set parent. -/
theorem register_last_registration_wins (a : Arena) (self i : Nat)
    (perms : List Nat) (hi : i ∈ perms) (hlen : i < a.length) :
    ∃ a2, register a self perms = .ok a2 ∧ (getNode a2 i).parent = some self := by
  obtain ⟨a', h1, h2, h3⟩ := registerLoop_parent self perms a i hlen (Or.inl hi)
  refine ⟨a'.set self { getNode a' self with
    children := (getNode a' self).children ++ perms }, ?_, ?_⟩
  · rw [register, h1]
  · rcases eq_or_ne i self with rfl | hne
    · rw [getNode_set_self _ (h2 ▸ hlen)]
      exact h3
    · rw [getNode_set_ne _ hne]
      exact h3

theorem register_last_registration_wins_witness :
    ∃ a2, register [{ key := "a".data }, { key := "c".data, parent := some 5 }]
        0 [1] = .ok a2 ∧ (getNode a2 1).parent = some 0 :=
  register_last_registration_wins _ 0 1 [1] (by decide) (by decide)

/-- Claim C7 counterexample: on the bare-root catalog, `exists "a..b"` does
not raise a malformed-input error — it returns `False`. -/
theorem exists_blank_segment_counterexample :
    Permission.exists' (.node [] .nil) "a..b".data = .ok false := by
  decide

/-- Claim C7 amended: for every catalog tree, `exists` raises an assertion
error on `""`, `">"` and `"*.x"`; on `"a..b"` it raises or returns `False`
(raising only in trees where the blank segment is reached), never `True`; and
it completes with a boolean on `"*"`, `"a.b"` and `"a.b>"`. -/
theorem exists_malformed_amended (t : Permission) :
    Permission.exists' t "".data =
      .error "Permission string segments cannot be blank" ∧
    Permission.exists' t ">".data =
      .error "Permission string segments cannot be blank" ∧
    Permission.exists' t "*.x".data =
      .error "The root permission string may only contain the root permission reference" ∧
    Permission.exists' t "a..b".data ≠ .ok true ∧
    (∃ b, Permission.exists' t "*".data = .ok b) ∧
    (∃ b, Permission.exists' t "a.b".data = .ok b) ∧
    (∃ b, Permission.exists' t "a.b>".data = .ok b) := by
  refine ⟨?_, ?_, ?_, ?_, ?_, ?_, ?_⟩
  · rw [Permission.exists']
    simp only []
    rw [if_neg (by decide), if_neg (by decide), if_pos (by decide),
      if_pos (by decide)]
  · rw [Permission.exists']
    simp only []
    rw [if_neg (by decide), if_neg (by decide), if_pos (by decide),
      if_pos (by decide)]
  · rw [Permission.exists']
    simp only []
    rw [if_neg (by decide), if_pos (by decide)]
  · exact exists_blank t _ (by decide)
  · exact exists_star t
  · exact exists_good t _ (by decide)
  · exact exists_good t _ (by decide)

/-- Claim C8 counterexample: `covers` does not raise on the request `"*.x"`
(the claim says it must): it completes and returns `False` for the empty
grant set. -/
theorem covers_malformed_counterexample : covers [] "*.x".data = .ok false := by
  have hj : joinDot [['*'], ['x']] = "*.x".data := by decide
  have h := covers_spec [] [['*'], ['x']] (by decide)
  rw [hj] at h
  rw [h]
  decide

/-- Claim C8 amended: `covers` raises exactly on requests that are empty or
contain `>`: it raises on `""`, `">"` and `"a.b>"`, and completes with a
boolean on `"*"`, `"a.b"`, `"*.x"` and `"a..b"`. -/
theorem covers_malformed_amended (G : List PStr) :
    covers G "".data = .error "The permission string cannot be empty" ∧
    covers G ">".data =
      .error "A required permission cannot contain an inclusive wildcard" ∧
    covers G "a.b>".data =
      .error "A required permission cannot contain an inclusive wildcard" ∧
    (∃ b, covers G "*".data = .ok b) ∧
    (∃ b, covers G "a.b".data = .ok b) ∧
    (∃ b, covers G "*.x".data = .ok b) ∧
    (∃ b, covers G "a..b".data = .ok b) := by
  refine ⟨?_, ?_, ?_, ?_, ?_, ?_, ?_⟩
  · rw [covers, _has_permission, if_neg (by decide), if_pos (by decide)]
  · rw [covers, _has_permission, if_pos (by decide)]
  · rw [covers, _has_permission, if_pos (by decide)]
  · exact hasPermission_no_error _ G _ false (Nat.le_refl _) (by decide) (by decide)
  · exact hasPermission_no_error _ G _ false (Nat.le_refl _) (by decide) (by decide)
  · exact hasPermission_no_error _ G _ false (Nat.le_refl _) (by decide) (by decide)
  · exact hasPermission_no_error _ G _ false (Nat.le_refl _) (by decide) (by decide)

/-- Claim C9: `covers` is monotone in the grant set — adding grant strings
never revokes coverage of a well-formed requested path. -/
theorem covers_monotone (G G' : List PStr) (segs : List PStr) (h : GoodPath segs)
    (hsub : G ⊆ G') (hc : covers G (joinDot segs) = .ok true) :
    covers G' (joinDot segs) = .ok true := by
  rw [covers_eq_ok_true_iff G segs h] at hc
  rw [covers_eq_ok_true_iff G' segs h]
  simp only [Bool.or_eq_true, decide_eq_true_eq, ancestorHit, List.any_eq_true,
    List.mem_range] at hc ⊢
  rcases hc with (h1 | h2) | ⟨i, hi, hm⟩
  · exact Or.inl (Or.inl (hsub h1))
  · exact Or.inl (Or.inr (hsub h2))
  · exact Or.inr ⟨i, hi, hsub hm⟩

theorem covers_monotone_witness :
    covers ["a>".data, "x".data] (joinDot ["a".data, "b".data]) = .ok true := by
  refine covers_monotone ["a>".data] _ _ (by decide) ?_ ?_
  · intro a ha
    rw [List.mem_singleton.1 ha]
    exact List.mem_cons_self _ _
  · rw [covers_spec _ _ (by decide)]
    decide

/-- Claim C10: `exists` never returns `True` for an input whose stripped form
contains a blank dot-separated segment, on any permission tree: it raises an
assertion error or returns `False`. -/
theorem exists_never_true_on_blank_segment (t : Permission) (s : PStr)
    (hb : [] ∈ (strip s).splitOn '.') : Permission.exists' t s ≠ .ok true :=
  exists_blank t s hb

theorem exists_never_true_on_blank_segment_witness :
    Permission.exists' sampleTree "test..sub1".data ≠ .ok true :=
  exists_never_true_on_blank_segment sampleTree "test..sub1".data (by decide)
